import Mathlib

/-!
Shallow embedding of the wakerpool crate (src/lib.rs): a `WakerList`
intrusive singly-linked stack of wakers, backed by a thread-local
`LocalPool` free chain and a global lock-free free chain (`GLOBAL_POOL`).

Modelling choices:
* Node memory is a heap `List WakerNode`; address `a` (with `a ≠ 0`)
  denotes slot `heap[a-1]`; address `0` is the null pointer.
* `MaybeUninit<Waker>` is modelled as `Option Waker`: `some w` means the
  payload is initialized (live) with waker `w`, `none` means it is
  uninitialized / moved out / dropped (dead).  `assume_init_read` and
  `assume_init_drop` transition the slot to `none` in the logical state.
* Wakers themselves are opaque; we model them as natural numbers.
* The embedding is the sequential (single thread, uncontended)
  semantics: a compare-and-swap against `GLOBAL_POOL` succeeds on its
  first attempt, so the retry loops in `acquire_node` run one iteration.
* The unbounded pointer-chasing loops of the source (`release_list`'s
  tail walk and the destruction pass of `Drop for WakerList`) are
  embedded with fuel `heap.length`; on every state satisfying the
  chain invariant the fuel is sufficient, which the lemmas below prove.
-/

namespace Wakerpool

/-- Wake handles are opaque callbacks; we model them by naturals. -/
abbrev Waker := Nat

/-- Model of `struct WakerNode { next: *mut WakerNode, waker: MaybeUninit<Waker> }`.
`next = 0` is the null pointer; `waker = none` is an uninitialized payload. -/
structure WakerNode where
  next : Nat
  waker : Option Waker
deriving DecidableEq

/-- Value of a freshly allocated node: null next, uninitialized payload. -/
def nullNode : WakerNode := ⟨0, none⟩

/-- Read the node at address `p` (callers only use `p ≠ 0` in-bounds). -/
def nodeAt (heap : List WakerNode) (p : Nat) : WakerNode :=
  (heap[p-1]?).getD nullNode

/-- Machine state visible to the claims: the node heap, the current
thread's `LocalPool` head and the `GLOBAL_POOL` head. -/
structure State where
  heap : List WakerNode
  localHead : Nat
  globalHead : Nat
deriving DecidableEq

def State.node (s : State) (p : Nat) : WakerNode := nodeAt s.heap p

/-- Store node value `n` at address `p`. -/
def State.setNode (s : State) (p : Nat) (n : WakerNode) : State :=
  { s with heap := s.heap.set (p-1) n }

/-- Model of the store `(*p).next = q`. -/
def State.setNext (s : State) (p q : Nat) : State :=
  s.setNode p { s.node p with next := q }

/-- Model of `(*p).waker.write(w)`. -/
def State.writeWaker (s : State) (p : Nat) (w : Waker) : State :=
  s.setNode p { s.node p with waker := some w }

/-- Logical effect of `assume_init_read` / `assume_init_drop` on the
payload at `p`: the slot becomes uninitialized (dead). -/
def State.clearWaker (s : State) (p : Nat) : State :=
  s.setNode p { s.node p with waker := none }

/-- Model of `allocate_node()`: `Box::into_raw(Box::new(WakerNode { next: null, waker: uninit }))`.
The fresh address is `heap.length + 1`. -/
def allocate_node (s : State) : Nat × State :=
  (s.heap.length + 1, { s with heap := s.heap ++ [nullNode] })

/-- Model of `LocalPool::acquire_node`: pop the local head if non-null;
otherwise pop the global head (the CAS loop, which succeeds at once in
the uncontended semantics); otherwise `allocate_node`. -/
def acquire_node (s : State) : Nat × State :=
  let node := s.localHead
  if node ≠ 0 then
    (node, { s with localHead := (s.node node).next })
  else
    let g := s.globalHead
    if g ≠ 0 then
      (g, { s with globalHead := (s.node g).next })
    else
      allocate_node s

/-- Model of `LocalPool::release_node`: link `node` as the new local head. -/
def release_node (s : State) (node : Nat) : State :=
  let s' := s.setNext node s.localHead
  { s' with localHead := node }

/-- Tail walk of `LocalPool::release_list` / `Drop for LocalPool`:
follow `next` until it is null, with explicit fuel. -/
def walkTail (heap : List WakerNode) : Nat → Nat → Nat
  | 0, p => p
  | fuel+1, p =>
    if (nodeAt heap p).next = 0 then p else walkTail heap fuel (nodeAt heap p).next

/-- Number of loop-body executions of the same tail walk. -/
def walkSteps (heap : List WakerNode) : Nat → Nat → Nat
  | 0, _ => 0
  | fuel+1, p =>
    if (nodeAt heap p).next = 0 then 1 else walkSteps heap fuel (nodeAt heap p).next + 1

/-- Model of `LocalPool::release_list`: if the local chain is empty the
supplied chain becomes the local chain; otherwise walk to the local
chain's tail and link the supplied chain there. -/
def release_list (s : State) (head : Nat) : State :=
  if s.localHead = 0 then { s with localHead := head }
  else s.setNext (walkTail s.heap s.heap.length s.localHead) head

/-- Loop-body executions performed by `release_list` (its only loop is
the walk over the local chain). -/
def release_list_steps (s : State) (_head : Nat) : Nat :=
  if s.localHead = 0 then 0 else walkSteps s.heap s.heap.length s.localHead

/-- Model of `pub struct WakerList { head: *mut WakerNode }`. -/
structure WakerList where
  head : Nat
deriving DecidableEq

/-- Model of `WakerList::new`. -/
def WakerList.new : WakerList := ⟨0⟩

/-- Model of `WakerList::is_empty`. -/
def WakerList.is_empty (l : WakerList) : Bool := l.head = 0

/-- Model of `WakerList::push`: acquire a node, write the waker, link
it in front of the current head, and make it the new head. -/
def push (s : State) (l : WakerList) (w : Waker) : State × WakerList :=
  let (node, s₁) := acquire_node s
  let s₂ := s₁.writeWaker node w
  let s₃ := s₂.setNext node l.head
  (s₃, ⟨node⟩)

/-- Model of `WakerList::pop`: `None` when the head is null, otherwise
unlink the head node, read its waker out (slot becomes dead), release
the node to the local pool and return the waker. -/
def pop (s : State) (l : WakerList) : Option Waker × State × WakerList :=
  if l.head = 0 then (none, s, l)
  else
    let node := l.head
    let newHead := (s.node node).next
    let w := ((s.node node).waker).getD 0
    let s₁ := s.clearWaker node
    let s₂ := release_node s₁ node
    (some w, s₂, ⟨newHead⟩)

/-- First pass of `Drop for WakerList`: walk the chain calling
`assume_init_drop` on every payload.  Returns the updated state and the
addresses whose payloads were destroyed, in walk order. -/
def destroyPass : Nat → State → Nat → State × List Nat
  | 0, s, _ => (s, [])
  | fuel+1, s, p =>
    if p = 0 then (s, [])
    else
      let s₁ := s.clearWaker p
      let (s₂, rest) := destroyPass fuel s₁ (s₁.node p).next
      (s₂, p :: rest)

/-- Model of `Drop for WakerList`: destroy every live payload in one
pass, then hand the whole chain to `release_list` in a single call. -/
def dropWakerList (s : State) (l : WakerList) : State × List Nat :=
  let (s₁, destroyed) := destroyPass s.heap.length s l.head
  (release_list s₁ l.head, destroyed)

/-- Loop-body executions performed by destruction after the
payload-destroying pass (that is, by its single `release_list` call). -/
def dropSecondPhaseSteps (s : State) (l : WakerList) : Nat :=
  release_list_steps (destroyPass s.heap.length s l.head).1 l.head

/-- Model of `Iterator::next` for `WakerList`: it delegates to `pop`. -/
def iterNext (s : State) (l : WakerList) : Option Waker × State × WakerList :=
  pop s l

/-- Push a whole list of wakers in order. -/
def pushAll (s : State) (l : WakerList) : List Waker → State × WakerList
  | [] => (s, l)
  | w :: ws =>
    let (s₁, l₁) := push s l w
    pushAll s₁ l₁ ws

/-- Pop `n` times, collecting every result. -/
def popN : Nat → State → WakerList → List (Option Waker) × State × WakerList
  | 0, s, l => ([], s, l)
  | n+1, s, l =>
    let (r, s₁, l₁) := pop s l
    let (rs, s₂, l₂) := popN n s₁ l₁
    (r :: rs, s₂, l₂)

/-- Consuming traversal through the code's `Iterator::next`: repeatedly
call `iterNext`, collecting yielded wakers, until it signals none. -/
def drainIter : Nat → State → WakerList → List Waker × State × WakerList
  | 0, s, l => ([], s, l)
  | fuel+1, s, l =>
    match iterNext s l with
    | (none, s₁, l₁) => ([], s₁, l₁)
    | (some w, s₁, l₁) =>
      let (ws, s₂, l₂) := drainIter fuel s₁ l₁
      (w :: ws, s₂, l₂)

/-- Modelled from the spec: the consuming traversal as the spec words
it, repeatedly calling `pop()` until it signals none. -/
def drainSpec : Nat → State → WakerList → List Waker × State × WakerList
  | 0, s, l => ([], s, l)
  | fuel+1, s, l =>
    match pop s l with
    | (none, s₁, l₁) => ([], s₁, l₁)
    | (some w, s₁, l₁) =>
      let (ws, s₂, l₂) := drainSpec fuel s₁ l₁
      (w :: ws, s₂, l₂)

/-- The exact chain of addresses reachable from pointer `p`: the spec's
"valid, finite, null-terminated singly linked sequence". -/
def isChain (heap : List WakerNode) : Nat → List Nat → Prop
  | p, [] => p = 0
  | p, a :: rest =>
    p = a ∧ a ≠ 0 ∧ a - 1 < heap.length ∧ isChain heap (nodeAt heap a).next rest

instance instDecidableIsChain (heap : List WakerNode) :
    (p : Nat) → (l : List Nat) → Decidable (isChain heap p l)
  | p, [] => inferInstanceAs (Decidable (p = 0))
  | p, a :: rest =>
    letI := instDecidableIsChain heap (nodeAt heap a).next rest
    inferInstanceAs
      (Decidable (p = a ∧ a ≠ 0 ∧ a - 1 < heap.length ∧ isChain heap (nodeAt heap a).next rest))

/-- Every address in `addrs` holds a live (initialized) payload. -/
abbrev liveAll (heap : List WakerNode) (addrs : List Nat) : Prop :=
  ∀ a ∈ addrs, (nodeAt heap a).waker ≠ none

/-- Every address in `addrs` holds a dead (uninitialized) payload. -/
abbrev deadAll (heap : List WakerNode) (addrs : List Nat) : Prop :=
  ∀ a ∈ addrs, (nodeAt heap a).waker = none

/-- The payload values stored along a list of addresses. -/
def payloads (heap : List WakerNode) (addrs : List Nat) : List Waker :=
  addrs.map fun a => ((nodeAt heap a).waker).getD 0

/-- Structural invariant of the system: the list chain, local free
chain and global free chain are valid null-terminated chains, pairwise
disjoint and duplicate-free; active nodes hold live payloads; pooled
nodes hold dead payloads. -/
abbrev WFChains (s : State) (l : WakerList) (lc loc gc : List Nat) : Prop :=
  isChain s.heap l.head lc ∧ isChain s.heap s.localHead loc ∧
  isChain s.heap s.globalHead gc ∧ (lc ++ loc ++ gc).Nodup ∧
  liveAll s.heap lc ∧ deadAll s.heap (loc ++ gc)

/-- Concrete states used to evaluate the theorems below. -/
def stateEmpty : State := ⟨[], 0, 0⟩

/-- Concrete state: list chain `[1]` (live payload 7), empty local pool. -/
def stateListOnly : State := ⟨[⟨0, some 7⟩], 0, 0⟩

/-- Concrete state: list chain `[1]` (live payload 7), local pool chain `[2, 3]`. -/
def stateListAndPool : State := ⟨[⟨0, some 7⟩, ⟨3, none⟩, ⟨0, none⟩], 2, 0⟩

/-- Concrete state: two dead nodes, local pool chain `[1]`, node 2 unattached. -/
def statePoolOne : State := ⟨[⟨0, none⟩, ⟨0, none⟩], 1, 0⟩

/-! ## Heap access lemmas -/

theorem nodeAt_set_self {heap : List WakerNode} {p : Nat} (n : WakerNode)
    (hlt : p - 1 < heap.length) :
    nodeAt (heap.set (p-1) n) p = n := by
  simp [nodeAt, List.getElem?_set_self', hlt]

theorem nodeAt_set_ne {heap : List WakerNode} {p q : Nat} (n : WakerNode)
    (hp : p ≠ 0) (hq : q ≠ 0) (hne : q ≠ p) :
    nodeAt (heap.set (p-1) n) q = nodeAt heap q := by
  have h : p - 1 ≠ q - 1 := by omega
  simp [nodeAt, List.getElem?_set_ne h]

theorem nodeAt_append {heap hs : List WakerNode} {p : Nat}
    (h : p - 1 < heap.length) :
    nodeAt (heap ++ hs) p = nodeAt heap p := by
  simp [nodeAt, List.getElem?_append, h]

theorem nodeAt_fresh (heap : List WakerNode) (n : WakerNode) :
    nodeAt (heap ++ [n]) (heap.length + 1) = n := by
  simp [nodeAt]

/-! ## Chain lemmas -/

theorem isChain_mem {heap : List WakerNode} :
    ∀ {p : Nat} {l : List Nat}, isChain heap p l →
      ∀ a ∈ l, a ≠ 0 ∧ a - 1 < heap.length := by
  intro p l
  induction l generalizing p with
  | nil => intro _ a ha; cases ha
  | cons b rest ih =>
    rintro ⟨rfl, hb0, hblt, hrest⟩ a ha
    rcases List.mem_cons.1 ha with rfl | ha
    · exact ⟨hb0, hblt⟩
    · exact ih hrest a ha

/-- Chains only read `next` fields and the heap length, so they transfer
between heaps agreeing on those. -/
theorem isChain_congr {heap heap' : List WakerNode}
    (hlen : heap.length ≤ heap'.length) :
    ∀ {p : Nat} {l : List Nat},
      (∀ a ∈ l, (nodeAt heap' a).next = (nodeAt heap a).next) →
      isChain heap p l → isChain heap' p l := by
  intro p l
  induction l generalizing p with
  | nil => intro _ h; exact h
  | cons a rest ih =>
    rintro hagree ⟨hpa, ha0, halt, hrest⟩
    refine ⟨hpa, ha0, by omega, ?_⟩
    rw [hagree a (by simp)]
    exact ih (fun b hb => hagree b (List.mem_cons_of_mem a hb)) hrest

theorem isChain_set_outside {heap : List WakerNode} {p b : Nat}
    {l : List Nat} (n : WakerNode) (hb : b ≠ 0) (hbl : b ∉ l)
    (hc : isChain heap p l) : isChain (heap.set (b-1) n) p l := by
  refine isChain_congr (by simp) (fun a ha => ?_) hc
  rw [nodeAt_set_ne n hb (isChain_mem hc a ha).1 (fun h => hbl (h ▸ ha))]

theorem isChain_append_heap {heap hs : List WakerNode} {p : Nat}
    {l : List Nat} (hc : isChain heap p l) : isChain (heap ++ hs) p l := by
  refine isChain_congr (by simp) (fun a ha => ?_) hc
  rw [nodeAt_append (isChain_mem hc a ha).2]

theorem isChain_length_le {heap : List WakerNode} {p : Nat} {l : List Nat}
    (hc : isChain heap p l) (hn : l.Nodup) : l.length ≤ heap.length := by
  classical
  have hmap : (l.map fun a => a - 1).Nodup := by
    refine hn.map_on ?_
    intro x hx y hy hxy
    have hx0 := (isChain_mem hc x hx).1
    have hy0 := (isChain_mem hc y hy).1
    omega
  have hsub : (l.map fun a => a - 1).toFinset ⊆ Finset.range heap.length := by
    intro b hb
    rw [List.mem_toFinset] at hb
    obtain ⟨a, ha, rfl⟩ := List.mem_map.1 hb
    exact Finset.mem_range.2 (isChain_mem hc a ha).2
  have := Finset.card_le_card hsub
  rw [Finset.card_range, List.toFinset_card_of_nodup hmap] at this
  simpa using this

theorem isChain_last_next {heap : List WakerNode} :
    ∀ {p : Nat} {l : List Nat} (hc : isChain heap p l) (hne : l ≠ []),
      (nodeAt heap (l.getLast hne)).next = 0 := by
  intro p l
  induction l generalizing p with
  | nil => intro hc hne; exact absurd rfl hne
  | cons a rest ih =>
    rintro ⟨hpa, _, _, hrest⟩ hne
    cases rest with
    | nil => simpa [List.getLast] using hrest
    | cons b r => simpa [List.getLast_cons] using ih hrest (by simp)

theorem walkTail_spec {heap : List WakerNode} :
    ∀ {l : List Nat} {p fuel : Nat} (hc : isChain heap p l) (hne : l ≠ []),
      l.length ≤ fuel → walkTail heap fuel p = l.getLast hne := by
  intro l
  induction l with
  | nil => intro p fuel hc hne; exact absurd rfl hne
  | cons a rest ih =>
    rintro p fuel ⟨hpa, ha0, halt, hrest⟩ hne hfuel
    subst hpa
    cases fuel with
    | zero => simp at hfuel
    | succ fuel =>
      cases rest with
      | nil =>
        have hnull : (nodeAt heap p).next = 0 := hrest
        simp [walkTail, hnull]
      | cons b r =>
        have hb0 : (nodeAt heap p).next ≠ 0 := by
          obtain ⟨hb, hb0, _, _⟩ := hrest
          omega
        simp only [walkTail, if_neg hb0]
        rw [ih hrest (by simp) (by simpa using hfuel)]
        simp [List.getLast_cons]

theorem walkSteps_spec {heap : List WakerNode} :
    ∀ {l : List Nat} {p fuel : Nat}, isChain heap p l → l ≠ [] →
      l.length ≤ fuel → walkSteps heap fuel p = l.length := by
  intro l
  induction l with
  | nil => intro p fuel _ hne; exact absurd rfl hne
  | cons a rest ih =>
    rintro p fuel ⟨hpa, ha0, halt, hrest⟩ hne hfuel
    subst hpa
    cases fuel with
    | zero => simp at hfuel
    | succ fuel =>
      cases rest with
      | nil =>
        have hnull : (nodeAt heap p).next = 0 := hrest
        simp [walkSteps, hnull]
      | cons b r =>
        have hb0 : (nodeAt heap p).next ≠ 0 := by
          obtain ⟨hb, hb0, _, _⟩ := hrest
          omega
        simp only [walkSteps, if_neg hb0]
        rw [ih hrest (by simp) (by simpa using hfuel)]
        simp

/-! ## Nodup bookkeeping -/

theorem nodup_pull_front {a : Nat} {lc loc gc : List Nat}
    (h : (lc ++ (a :: loc) ++ gc).Nodup) : ((a :: lc) ++ loc ++ gc).Nodup := by
  have hp : List.Perm (lc ++ (a :: loc) ++ gc) ((a :: lc) ++ loc ++ gc) := by
    simp only [List.cons_append, List.append_assoc]
    exact List.perm_middle
  exact hp.nodup h

theorem nodup_pull_front_global {a : Nat} {lc loc gc : List Nat}
    (h : (lc ++ loc ++ (a :: gc)).Nodup) : ((a :: lc) ++ loc ++ gc).Nodup := by
  have hp : List.Perm (lc ++ loc ++ (a :: gc)) ((a :: lc) ++ loc ++ gc) := by
    simpa [List.append_assoc] using (@List.perm_middle Nat a (lc ++ loc) gc)
  exact hp.nodup h

theorem nodup_push_back {a : Nat} {lc loc gc : List Nat}
    (h : ((a :: lc) ++ loc ++ gc).Nodup) : (lc ++ (a :: loc) ++ gc).Nodup := by
  have hp : List.Perm ((a :: lc) ++ loc ++ gc) (lc ++ (a :: loc) ++ gc) := by
    simp only [List.cons_append, List.append_assoc]
    exact List.perm_middle.symm
  exact hp.nodup h

theorem nodup_drop_shuffle {lc loc gc : List Nat}
    (h : (lc ++ loc ++ gc).Nodup) : ((loc ++ lc) ++ gc).Nodup := by
  have hp : List.Perm (lc ++ loc ++ gc) ((loc ++ lc) ++ gc) :=
    (List.perm_append_comm.append_right gc)
  exact hp.nodup h

/-! ## Destruction pass -/

theorem destroyPass_zero (fuel : Nat) (s : State) :
    destroyPass fuel s 0 = (s, []) := by
  cases fuel <;> simp [destroyPass]

theorem destroyPass_spec :
    ∀ {l : List Nat} {s : State} {p fuel : Nat},
      isChain s.heap p l → l.Nodup → l.length ≤ fuel →
      ∃ s', destroyPass fuel s p = (s', l) ∧
        s'.localHead = s.localHead ∧ s'.globalHead = s.globalHead ∧
        s'.heap.length = s.heap.length ∧
        (∀ b, b ≠ 0 → b ∉ l → nodeAt s'.heap b = nodeAt s.heap b) ∧
        (∀ a ∈ l, nodeAt s'.heap a = { nodeAt s.heap a with waker := none }) := by
  intro l
  induction l with
  | nil =>
    intro s p fuel hc _ _
    have hp : p = 0 := hc
    subst hp
    exact ⟨s, destroyPass_zero fuel s, rfl, rfl, rfl, fun _ _ _ => rfl, by simp⟩
  | cons a rest ih =>
    rintro s p fuel ⟨hpa, ha0, halt, hrest⟩ hnd hfuel
    subst hpa
    cases fuel with
    | zero => simp at hfuel
    | succ fuel =>
      have hanr : p ∉ rest := (List.nodup_cons.1 hnd).1
      have hndr : rest.Nodup := (List.nodup_cons.1 hnd).2
      set s₁ := s.clearWaker p with hs₁
      have hlen₁ : s₁.heap.length = s.heap.length := by
        simp [hs₁, State.clearWaker, State.setNode]
      have hnode₁ : nodeAt s₁.heap p = { nodeAt s.heap p with waker := none } := by
        simp only [hs₁, State.clearWaker, State.setNode, State.node]
        exact nodeAt_set_self _ halt
      have hother₁ : ∀ b, b ≠ 0 → b ≠ p → nodeAt s₁.heap b = nodeAt s.heap b := by
        intro b hb0 hba
        simp only [hs₁, State.clearWaker, State.setNode, State.node]
        exact nodeAt_set_ne _ ha0 hb0 hba
      have hnext₁ : (s₁.node p).next = (nodeAt s.heap p).next := by
        simp [State.node, hnode₁]
      have hrest₁ : isChain s₁.heap (s₁.node p).next rest := by
        rw [hnext₁]
        refine isChain_congr (by omega) (fun b hb => ?_) hrest
        rw [hother₁ b (isChain_mem hrest b hb).1 (fun h => hanr (h ▸ hb))]
      obtain ⟨s₂, heq, hl₂, hg₂, hlen₂, hout₂, hin₂⟩ :=
        ih hrest₁ hndr (by simpa using Nat.le_of_succ_le_succ hfuel)
      refine ⟨s₂, ?_, ?_, ?_, ?_, ?_, ?_⟩
      · simp only [destroyPass, if_neg ha0]
        rw [← hs₁, heq]
      · rw [hl₂]; simp [hs₁, State.clearWaker, State.setNode]
      · rw [hg₂]; simp [hs₁, State.clearWaker, State.setNode]
      · omega
      · intro b hb0 hbl
        rw [hout₂ b hb0 (fun h => hbl (List.mem_cons_of_mem p h)),
          hother₁ b hb0 (fun h => hbl (h ▸ List.mem_cons_self p rest))]
      · intro x hx
        rcases List.mem_cons.1 hx with rfl | hx
        · rw [hout₂ x ha0 hanr, hnode₁]
        · rw [hin₂ x hx, hother₁ x (isChain_mem hrest₁ x hx).1
            (fun h => hanr (h ▸ hx))]

theorem isChain_zero {heap : List WakerNode} {l : List Nat}
    (hc : isChain heap 0 l) : l = [] := by
  cases l with
  | nil => rfl
  | cons a rest =>
    obtain ⟨hpa, ha0, _, _⟩ := hc
    exact absurd hpa.symm ha0

theorem isChain_head_ne {heap : List WakerNode} {p : Nat} {l : List Nat}
    (hc : isChain heap p l) (hp : p ≠ 0) : l ≠ [] := by
  cases l with
  | nil => exact absurd hc hp
  | cons a rest => simp

/-- Linking a chain `lc` onto the tail of a chain `loc` (the store
performed by `release_list`) yields the appended chain. -/
theorem isChain_link {heap : List WakerNode} {h : Nat} {lc : List Nat}
    (hlc : isChain heap h lc) :
    ∀ {p : Nat} {loc : List Nat} (hc : isChain heap p loc) (hne : loc ≠ []),
      (loc ++ lc).Nodup →
      isChain (heap.set (loc.getLast hne - 1)
        { nodeAt heap (loc.getLast hne) with next := h }) p (loc ++ lc) := by
  intro p loc
  induction loc generalizing p with
  | nil => intro _ hne; exact absurd rfl hne
  | cons a rest ih =>
    rintro ⟨hpa, ha0, halt, hrest⟩ hne hnd
    obtain ⟨hamem, hrl⟩ := List.nodup_cons.1 hnd
    cases rest with
    | nil =>
      have hanl : a ∉ lc := by simpa using hamem
      have hgl : ([a].getLast hne : Nat) = a := rfl
      rw [hgl]
      refine ⟨hpa, ha0, by simpa using halt, ?_⟩
      rw [nodeAt_set_self _ halt]
      simpa using isChain_set_outside _ ha0 hanl hlc
    | cons b r =>
      have hner : (b :: r : List Nat) ≠ [] := by simp
      have htmem : (b :: r).getLast hner ∈ b :: r := List.getLast_mem hner
      have ht := isChain_mem hrest _ htmem
      have hat : a ≠ (b :: r).getLast hner := by
        intro hx
        exact hamem (List.mem_append_left lc (hx ▸ htmem))
      have hgl : (a :: b :: r).getLast hne = (b :: r).getLast hner :=
        List.getLast_cons hner
      rw [hgl]
      refine ⟨hpa, ha0, by simpa using halt, ?_⟩
      rw [nodeAt_set_ne _ ht.1 ha0 hat]
      exact ih hrest hner hrl

theorem release_list_spec {s : State} {loc lc : List Nat} {hd : Nat}
    (hloc : isChain s.heap s.localHead loc)
    (hlc : isChain s.heap hd lc) (hnd : (loc ++ lc).Nodup) :
    (release_list s hd).globalHead = s.globalHead ∧
    (release_list s hd).heap.length = s.heap.length ∧
    isChain (release_list s hd).heap (release_list s hd).localHead (loc ++ lc) ∧
    (∀ b, b ≠ 0 → (nodeAt (release_list s hd).heap b).waker = (nodeAt s.heap b).waker) ∧
    (∀ b, b ≠ 0 → b ∉ loc → nodeAt (release_list s hd).heap b = nodeAt s.heap b) := by
  by_cases h0 : s.localHead = 0
  · have hloc0 : loc = [] := isChain_zero (h0 ▸ hloc)
    subst hloc0
    have hrel : release_list s hd = { s with localHead := hd } := by
      simp [release_list, h0]
    rw [hrel]
    exact ⟨rfl, rfl, by simpa using hlc, fun _ _ => rfl, fun _ _ _ => rfl⟩
  · have hne : loc ≠ [] := isChain_head_ne hloc h0
    have hndloc : loc.Nodup := (List.nodup_append.1 hnd).1
    have hle : loc.length ≤ s.heap.length := isChain_length_le hloc hndloc
    have hwt : walkTail s.heap s.heap.length s.localHead = loc.getLast hne :=
      walkTail_spec hloc hne hle
    have htmem : loc.getLast hne ∈ loc := List.getLast_mem hne
    have ht := isChain_mem hloc _ htmem
    have hrel : release_list s hd =
        s.setNode (loc.getLast hne)
          { nodeAt s.heap (loc.getLast hne) with next := hd } := by
      simp only [release_list, if_neg h0, hwt, State.setNext, State.node]
    rw [hrel]
    have hheap : (s.setNode (loc.getLast hne)
        { nodeAt s.heap (loc.getLast hne) with next := hd }).heap =
        s.heap.set (loc.getLast hne - 1)
          { nodeAt s.heap (loc.getLast hne) with next := hd } := rfl
    refine ⟨rfl, by simp [State.setNode], ?_, ?_, ?_⟩
    · exact isChain_link hlc hloc hne hnd
    · intro b hb0
      rw [hheap]
      by_cases hbt : b = loc.getLast hne
      · rw [hbt, nodeAt_set_self _ ht.2]
      · rw [nodeAt_set_ne _ ht.1 hb0 hbt]
    · intro b hb0 hbl
      have hbt : b ≠ loc.getLast hne := fun hx => hbl (hx ▸ htmem)
      rw [hheap, nodeAt_set_ne _ ht.1 hb0 hbt]

/-- Unpack the disjointness facts packed into the invariant's `Nodup`. -/
theorem nodup_parts {lc loc gc : List Nat} (hnd : (lc ++ loc ++ gc).Nodup) :
    lc.Nodup ∧ loc.Nodup ∧ gc.Nodup ∧
    (∀ b ∈ loc, b ∉ lc) ∧ (∀ b ∈ gc, b ∉ lc) ∧ (∀ b ∈ gc, b ∉ loc) ∧
    (∀ b ∈ lc, b ∉ loc) ∧ (∀ b ∈ lc, b ∉ gc) ∧ (∀ b ∈ loc, b ∉ gc) ∧
    (loc ++ lc).Nodup := by
  obtain ⟨h12, h3, hd123⟩ := List.nodup_append.1 hnd
  obtain ⟨h1, h2, hd12⟩ := List.nodup_append.1 h12
  refine ⟨h1, h2, h3, ?_, ?_, ?_, ?_, ?_, ?_, ?_⟩
  · exact fun b hb hbl => hd12 hbl hb
  · exact fun b hb hbl => hd123 (List.mem_append_left loc hbl) hb
  · exact fun b hb hbl => hd123 (List.mem_append_right lc hbl) hb
  · exact fun b hb hbl => hd12 hb hbl
  · exact fun b hb hbl => hd123 (List.mem_append_left loc hb) hbl
  · exact fun b hb hbl => hd123 (List.mem_append_right lc hb) hbl
  · exact List.nodup_append.2 ⟨h2, h1, fun b hb hbl => hd12 hbl hb⟩

/-- Full description of `Drop for WakerList` on a well-formed state:
the destroy pass destroys exactly the list's chain (each address once),
afterwards every destroyed slot is dead, and the whole chain ends up
appended after the local pool's chain; the global pool and the heap
footprint are untouched. -/
theorem drop_spec {s : State} {l : WakerList} {lc loc gc : List Nat}
    (h : WFChains s l lc loc gc) :
    (dropWakerList s l).2 = lc ∧
    (dropWakerList s l).1.globalHead = s.globalHead ∧
    (dropWakerList s l).1.heap.length = s.heap.length ∧
    isChain (dropWakerList s l).1.heap (dropWakerList s l).1.localHead (loc ++ lc) ∧
    isChain (dropWakerList s l).1.heap (dropWakerList s l).1.globalHead gc ∧
    deadAll (dropWakerList s l).1.heap ((loc ++ lc) ++ gc) ∧
    ((loc ++ lc) ++ gc).Nodup := by
  obtain ⟨hlc, hloc, hgc, hnd, hlive, hdead⟩ := h
  obtain ⟨hndlc, hndloc, hndgc, hlocnlc, hgcnlc, hgcnloc, _, _, _, hndloclc⟩ :=
    nodup_parts hnd
  have hle : lc.length ≤ s.heap.length := isChain_length_le hlc hndlc
  obtain ⟨s₁, heq, hl₁, hg₁, hlen₁, hout₁, hin₁⟩ := destroyPass_spec hlc hndlc hle
  have hnext₁ : ∀ b, b ≠ 0 → (nodeAt s₁.heap b).next = (nodeAt s.heap b).next := by
    intro b hb0
    by_cases hbl : b ∈ lc
    · rw [hin₁ b hbl]
    · rw [hout₁ b hb0 hbl]
  have hlc₁ : isChain s₁.heap l.head lc :=
    isChain_congr (by omega)
      (fun b hb => hnext₁ b (isChain_mem hlc b hb).1) hlc
  have hloc₁ : isChain s₁.heap s₁.localHead loc := by
    rw [hl₁]
    exact isChain_congr (by omega)
      (fun b hb => hnext₁ b (isChain_mem hloc b hb).1) hloc
  have hgc₁ : isChain s₁.heap s₁.globalHead gc := by
    rw [hg₁]
    exact isChain_congr (by omega)
      (fun b hb => hnext₁ b (isChain_mem hgc b hb).1) hgc
  have hdead₁ : deadAll s₁.heap (loc ++ lc) := by
    intro b hb
    rcases List.mem_append.1 hb with hb | hb
    · rw [hout₁ b (isChain_mem hloc b hb).1 (hlocnlc b hb)]
      exact hdead b (List.mem_append_left gc hb)
    · rw [hin₁ b hb]
  have hdeadgc₁ : deadAll s₁.heap gc := by
    intro b hb
    rw [hout₁ b (isChain_mem hgc b hb).1 (hgcnlc b hb)]
    exact hdead b (List.mem_append_right loc hb)
  obtain ⟨hrg, hrlen, hrchain, hrwaker, hrout⟩ :=
    release_list_spec hloc₁ hlc₁ hndloclc
  have hdw : dropWakerList s l = (release_list s₁ l.head, lc) := by
    simp only [dropWakerList, heq]
  rw [hdw]
  refine ⟨rfl, ?_, ?_, hrchain, ?_, ?_, ?_⟩
  · show (release_list s₁ l.head).globalHead = s.globalHead
    rw [hrg, hg₁]
  · show (release_list s₁ l.head).heap.length = s.heap.length
    omega
  · show isChain (release_list s₁ l.head).heap (release_list s₁ l.head).globalHead gc
    rw [hrg]
    refine isChain_congr (by omega) (fun b hb => ?_) hgc₁
    rw [hrout b (isChain_mem hgc₁ b hb).1 (fun hx => hgcnloc b hb hx)]
  · show deadAll (release_list s₁ l.head).heap ((loc ++ lc) ++ gc)
    intro b hb
    have hb0 : b ≠ 0 := by
      rcases List.mem_append.1 hb with hb | hb
      · rcases List.mem_append.1 hb with hb | hb
        · exact (isChain_mem hloc b hb).1
        · exact (isChain_mem hlc b hb).1
      · exact (isChain_mem hgc b hb).1
    rw [hrwaker b hb0]
    rcases List.mem_append.1 hb with hb | hb
    · exact hdead₁ b hb
    · exact hdeadgc₁ b hb
  · exact nodup_drop_shuffle hnd

theorem payloads_congr {heap heap' : List WakerNode} {l : List Nat}
    (h : ∀ a ∈ l, (nodeAt heap' a).waker = (nodeAt heap a).waker) :
    payloads heap' l = payloads heap l := by
  unfold payloads
  exact List.map_congr_left fun a ha => by rw [h a ha]

/-- Common tail of `push` after node `a` has been acquired into state `s₁`:
writing the waker and linking `a` in front of `lh` restores the invariant
with `a` as the new list head. -/
theorem push_post {s₁ : State} {lh a : Nat} {lc loc' gc' : List Nat} (w : Waker)
    (ha0 : a ≠ 0) (halt : a - 1 < s₁.heap.length)
    (hlc : isChain s₁.heap lh lc)
    (hloc : isChain s₁.heap s₁.localHead loc')
    (hgc : isChain s₁.heap s₁.globalHead gc')
    (hnd : ((a :: lc) ++ loc' ++ gc').Nodup)
    (hlive : liveAll s₁.heap lc)
    (hdead : deadAll s₁.heap (loc' ++ gc')) :
    WFChains ((s₁.writeWaker a w).setNext a lh) ⟨a⟩ (a :: lc) loc' gc' ∧
    payloads ((s₁.writeWaker a w).setNext a lh).heap (a :: lc) =
      w :: payloads s₁.heap lc ∧
    ((s₁.writeWaker a w).setNext a lh).heap.length = s₁.heap.length := by
  obtain ⟨hamem, hndrest⟩ := List.nodup_cons.1 hnd
  have hanlc : a ∉ lc := fun hx =>
    hamem (List.mem_append_left gc' (List.mem_append_left loc' hx))
  have hanloc : a ∉ loc' := fun hx =>
    hamem (List.mem_append_left gc' (List.mem_append_right lc hx))
  have hangc : a ∉ gc' := fun hx => hamem (List.mem_append_right (lc ++ loc') hx)
  have hw : (s₁.writeWaker a w).heap
      = s₁.heap.set (a-1) { nodeAt s₁.heap a with waker := some w } := rfl
  have hnodew : nodeAt (s₁.writeWaker a w).heap a
      = { nodeAt s₁.heap a with waker := some w } := by
    rw [hw]; exact nodeAt_set_self _ halt
  have hlenw : (s₁.writeWaker a w).heap.length = s₁.heap.length := by
    rw [hw]; simp
  have hheap₃ : ((s₁.writeWaker a w).setNext a lh).heap
      = (s₁.writeWaker a w).heap.set (a-1)
        { nodeAt (s₁.writeWaker a w).heap a with next := lh } := rfl
  have hlen₃ : ((s₁.writeWaker a w).setNext a lh).heap.length = s₁.heap.length := by
    rw [hheap₃]; simp [hlenw]
  have hnode₃a : nodeAt ((s₁.writeWaker a w).setNext a lh).heap a
      = ⟨lh, some w⟩ := by
    rw [hheap₃, nodeAt_set_self _ (by rw [hlenw]; exact halt), hnodew]
  have hnode₃ : ∀ b, b ≠ 0 → b ≠ a →
      nodeAt ((s₁.writeWaker a w).setNext a lh).heap b = nodeAt s₁.heap b := by
    intro b hb0 hba
    rw [hheap₃, nodeAt_set_ne _ ha0 hb0 hba, hw, nodeAt_set_ne _ ha0 hb0 hba]
  have hlh₃ : ((s₁.writeWaker a w).setNext a lh).localHead = s₁.localHead := rfl
  have hgh₃ : ((s₁.writeWaker a w).setNext a lh).globalHead = s₁.globalHead := rfl
  have hlc₃ : isChain ((s₁.writeWaker a w).setNext a lh).heap lh lc := by
    refine isChain_congr (by omega) (fun b hb => ?_) hlc
    rw [hnode₃ b (isChain_mem hlc b hb).1 (fun hx => hanlc (hx ▸ hb))]
  refine ⟨⟨?_, ?_, ?_, hnd, ?_, ?_⟩, ?_, hlen₃⟩
  · exact ⟨rfl, ha0, by omega, by rw [hnode₃a]; exact hlc₃⟩
  · rw [hlh₃]
    refine isChain_congr (by omega) (fun b hb => ?_) hloc
    rw [hnode₃ b (isChain_mem hloc b hb).1 (fun hx => hanloc (hx ▸ hb))]
  · rw [hgh₃]
    refine isChain_congr (by omega) (fun b hb => ?_) hgc
    rw [hnode₃ b (isChain_mem hgc b hb).1 (fun hx => hangc (hx ▸ hb))]
  · intro b hb
    rcases List.mem_cons.1 hb with rfl | hb
    · rw [hnode₃a]; simp
    · rw [hnode₃ b (isChain_mem hlc b hb).1 (fun hx => hanlc (hx ▸ hb))]
      exact hlive b hb
  · intro b hb
    have hb0 : b ≠ 0 := by
      rcases List.mem_append.1 hb with hb | hb
      · exact (isChain_mem hloc b hb).1
      · exact (isChain_mem hgc b hb).1
    have hba : b ≠ a := by
      intro hx
      rcases List.mem_append.1 hb with hb | hb
      · exact hanloc (hx ▸ hb)
      · exact hangc (hx ▸ hb)
    rw [hnode₃ b hb0 hba]
    exact hdead b hb
  · show payloads _ (a :: lc) = _
    unfold payloads
    rw [List.map_cons, hnode₃a]
    refine congrArg₂ _ rfl ?_
    exact List.map_congr_left fun b hb => by
      rw [hnode₃ b (isChain_mem hlc b hb).1 (fun hx => hanlc (hx ▸ hb))]

/-- Effect of `push` on a well-formed state: some node `a` becomes the
new list head with payload `w`; the invariant is preserved and the old
list chain keeps its payloads. -/
theorem push_spec {s : State} {l : WakerList} {lc loc gc : List Nat} (w : Waker)
    (h : WFChains s l lc loc gc) :
    ∃ a loc' gc',
      (push s l w).2 = ⟨a⟩ ∧
      WFChains (push s l w).1 ⟨a⟩ (a :: lc) loc' gc' ∧
      payloads (push s l w).1.heap (a :: lc) = w :: payloads s.heap lc ∧
      s.heap.length ≤ (push s l w).1.heap.length := by
  obtain ⟨hlc, hloc, hgc, hnd, hlive, hdead⟩ := h
  by_cases h0 : s.localHead = 0
  · have hloc0 : loc = [] := isChain_zero (h0 ▸ hloc)
    subst hloc0
    by_cases hg : s.globalHead = 0
    · -- both pools empty: allocate a fresh node
      have hgc0 : gc = [] := isChain_zero (hg ▸ hgc)
      subst hgc0
      have hpush : push s l w =
          ((({ s with heap := s.heap ++ [nullNode] }).writeWaker (s.heap.length + 1) w).setNext
            (s.heap.length + 1) l.head, ⟨s.heap.length + 1⟩) := by
        simp [push, acquire_node, allocate_node, h0, hg]
      set s₁ : State := { s with heap := s.heap ++ [nullNode] } with hs₁
      have hlen₁ : s₁.heap.length = s.heap.length + 1 := by simp [hs₁]
      have ha0 : s.heap.length + 1 ≠ 0 := by omega
      have halt : s.heap.length + 1 - 1 < s₁.heap.length := by omega
      have hlc₁ : isChain s₁.heap l.head lc := isChain_append_heap hlc
      have hloc₁ : isChain s₁.heap s₁.localHead [] := h0
      have hgc₁ : isChain s₁.heap s₁.globalHead [] := hg
      have hanlc : s.heap.length + 1 ∉ lc := by
        intro hx
        have := (isChain_mem hlc _ hx).2
        omega
      have hnd₁ : (((s.heap.length + 1) :: lc) ++ [] ++ []).Nodup := by
        simp only [List.append_nil]
        exact List.nodup_cons.2 ⟨hanlc, by simpa using hnd⟩
      have hlive₁ : liveAll s₁.heap lc := by
        intro b hb
        show (nodeAt (s.heap ++ [nullNode]) b).waker ≠ none
        rw [nodeAt_append (isChain_mem hlc b hb).2]
        exact hlive b hb
      have hdead₁ : deadAll s₁.heap ([] ++ []) := by
        intro b hb
        simp at hb
      obtain ⟨hwf, hpay, hlen₃⟩ :=
        @push_post s₁ l.head (s.heap.length + 1) lc [] [] w ha0 halt hlc₁ hloc₁ hgc₁
          hnd₁ hlive₁ hdead₁
      refine ⟨s.heap.length + 1, [], [], by rw [hpush], by rw [hpush]; exact hwf, ?_, ?_⟩
      · rw [hpush]
        rw [hpay]
        refine congrArg₂ _ rfl ?_
        refine payloads_congr fun b hb => ?_
        show (nodeAt (s.heap ++ [nullNode]) b).waker = _
        rw [nodeAt_append (isChain_mem hlc b hb).2]
      · rw [hpush]
        show s.heap.length ≤ ((s₁.writeWaker _ w).setNext _ l.head).heap.length
        omega
    · -- local pool empty, global pool non-empty: pop the global head
      cases gc with
      | nil => exact absurd hgc hg
      | cons a gc' =>
        obtain ⟨hpa, ha0, halt, hrest⟩ := hgc
        have hpush : push s l w =
            ((({ s with globalHead := (s.node s.globalHead).next }).writeWaker s.globalHead w).setNext
              s.globalHead l.head, ⟨s.globalHead⟩) := by
          simp [push, acquire_node, h0, hg]
        set s₁ : State := { s with globalHead := (s.node s.globalHead).next } with hs₁
        have hheq : s₁.heap = s.heap := rfl
        have hlc₁ : isChain s₁.heap l.head lc := hlc
        have hloc₁ : isChain s₁.heap s₁.localHead [] := h0
        have hgc₁ : isChain s₁.heap s₁.globalHead gc' := by
          show isChain s.heap (s.node s.globalHead).next gc'
          rw [hpa]
          exact hrest
        have hnd₁ : ((a :: lc) ++ [] ++ gc').Nodup := nodup_pull_front_global hnd
        have hdead₁ : deadAll s₁.heap ([] ++ gc') := by
          intro b hb
          exact hdead b (List.mem_cons_of_mem a hb)
        rw [hpa] at hpush
        obtain ⟨hwf, hpay, hlen₃⟩ :=
          @push_post s₁ l.head a lc [] gc' w ha0 halt hlc₁ hloc₁ hgc₁ hnd₁ hlive hdead₁
        refine ⟨a, [], gc', by rw [hpush], by rw [hpush]; exact hwf, ?_, ?_⟩
        · rw [hpush, hpay]
        · rw [hpush]
          show s.heap.length ≤ ((s₁.writeWaker a w).setNext a l.head).heap.length
          rw [hlen₃]
  · -- local pool non-empty: pop the local head
    cases loc with
    | nil => exact absurd hloc h0
    | cons a loc' =>
      obtain ⟨hpa, ha0, halt, hrest⟩ := hloc
      have hpush : push s l w =
          ((({ s with localHead := (s.node s.localHead).next }).writeWaker s.localHead w).setNext
            s.localHead l.head, ⟨s.localHead⟩) := by
        simp [push, acquire_node, h0]
      set s₁ : State := { s with localHead := (s.node s.localHead).next } with hs₁
      have hlc₁ : isChain s₁.heap l.head lc := hlc
      have hloc₁ : isChain s₁.heap s₁.localHead loc' := by
        show isChain s.heap (s.node s.localHead).next loc'
        rw [hpa]
        exact hrest
      have hgc₁ : isChain s₁.heap s₁.globalHead gc := hgc
      have hnd₁ : ((a :: lc) ++ loc' ++ gc).Nodup := nodup_pull_front hnd
      have hdead₁ : deadAll s₁.heap (loc' ++ gc) := by
        intro b hb
        refine hdead b ?_
        rcases List.mem_append.1 hb with hb | hb
        · exact List.mem_append_left gc (List.mem_cons_of_mem a hb)
        · exact List.mem_append_right _ hb
      rw [hpa] at hpush
      obtain ⟨hwf, hpay, hlen₃⟩ :=
        @push_post s₁ l.head a lc loc' gc w ha0 halt hlc₁ hloc₁ hgc₁ hnd₁ hlive hdead₁
      refine ⟨a, loc', gc, by rw [hpush], by rw [hpush]; exact hwf, ?_, ?_⟩
      · rw [hpush, hpay]
      · rw [hpush]
        show s.heap.length ≤ ((s₁.writeWaker a w).setNext a l.head).heap.length
        rw [hlen₃]

/-- Effect of `pop` on a well-formed non-empty list: it returns the head
node's payload, the head node moves to the front of the local pool with
a dead payload, and the invariant is preserved. -/
theorem pop_spec {s : State} {l : WakerList} {a : Nat} {lc loc gc : List Nat}
    (h : WFChains s l (a :: lc) loc gc) :
    (pop s l).1 = some (((nodeAt s.heap a).waker).getD 0) ∧
    (pop s l).2.2 = ⟨(nodeAt s.heap a).next⟩ ∧
    WFChains (pop s l).2.1 (pop s l).2.2 lc (a :: loc) gc ∧
    payloads (pop s l).2.1.heap lc = payloads s.heap lc ∧
    (pop s l).2.1.heap.length = s.heap.length ∧
    (pop s l).2.1.localHead = a ∧
    (pop s l).2.1.globalHead = s.globalHead := by
  obtain ⟨hlc, hloc, hgc, hnd, hlive, hdead⟩ := h
  obtain ⟨hha, ha0, halt, hrest⟩ := hlc
  have hl : l = ⟨a⟩ := by cases l; simpa using hha
  subst hl
  obtain ⟨hamem, hndrest⟩ := List.nodup_cons.1 hnd
  have hanlc : a ∉ lc := fun hx =>
    hamem (List.mem_append_left gc (List.mem_append_left loc hx))
  have hanloc : a ∉ loc := fun hx =>
    hamem (List.mem_append_left gc (List.mem_append_right lc hx))
  have hangc : a ∉ gc := fun hx => hamem (List.mem_append_right (lc ++ loc) hx)
  have hpop : pop s ⟨a⟩ =
      (some (((s.node a).waker).getD 0),
       release_node (s.clearWaker a) a, ⟨(s.node a).next⟩) := by
    simp [pop, ha0]
  have hc : (s.clearWaker a).heap
      = s.heap.set (a-1) { nodeAt s.heap a with waker := none } := rfl
  have hlenc : (s.clearWaker a).heap.length = s.heap.length := by rw [hc]; simp
  have hnodec : nodeAt (s.clearWaker a).heap a
      = { nodeAt s.heap a with waker := none } := by
    rw [hc]; exact nodeAt_set_self _ halt
  set s₂ := release_node (s.clearWaker a) a with hs₂
  have hheap₂ : s₂.heap = (s.clearWaker a).heap.set (a-1)
      { nodeAt (s.clearWaker a).heap a with next := s.localHead } := rfl
  have hlen₂ : s₂.heap.length = s.heap.length := by rw [hheap₂]; simp [hlenc]
  have hnode₂a : nodeAt s₂.heap a = ⟨s.localHead, none⟩ := by
    rw [hheap₂, nodeAt_set_self _ (by rw [hlenc]; exact halt), hnodec]
  have hnode₂ : ∀ b, b ≠ 0 → b ≠ a → nodeAt s₂.heap b = nodeAt s.heap b := by
    intro b hb0 hba
    rw [hheap₂, nodeAt_set_ne _ ha0 hb0 hba, hc, nodeAt_set_ne _ ha0 hb0 hba]
  have hlh₂ : s₂.localHead = a := rfl
  have hgh₂ : s₂.globalHead = s.globalHead := rfl
  rw [hpop]
  refine ⟨rfl, rfl, ⟨?_, ?_, ?_, nodup_push_back hnd, ?_, ?_⟩, ?_, hlen₂, hlh₂, hgh₂⟩
  · show isChain s₂.heap (s.node a).next lc
    refine isChain_congr (by omega) (fun b hb => ?_) hrest
    rw [hnode₂ b (isChain_mem hrest b hb).1 (fun hx => hanlc (hx ▸ hb))]
  · show isChain s₂.heap s₂.localHead (a :: loc)
    rw [hlh₂]
    refine ⟨rfl, ha0, by omega, ?_⟩
    rw [hnode₂a]
    show isChain s₂.heap s.localHead loc
    refine isChain_congr (by omega) (fun b hb => ?_) hloc
    rw [hnode₂ b (isChain_mem hloc b hb).1 (fun hx => hanloc (hx ▸ hb))]
  · show isChain s₂.heap s₂.globalHead gc
    rw [hgh₂]
    refine isChain_congr (by omega) (fun b hb => ?_) hgc
    rw [hnode₂ b (isChain_mem hgc b hb).1 (fun hx => hangc (hx ▸ hb))]
  · intro b hb
    rw [hnode₂ b (isChain_mem hrest b hb).1 (fun hx => hanlc (hx ▸ hb))]
    exact hlive b (List.mem_cons_of_mem a hb)
  · intro b hb
    rcases List.mem_append.1 hb with hb | hb
    · rcases List.mem_cons.1 hb with rfl | hb
      · rw [hnode₂a]
      · rw [hnode₂ b (isChain_mem hloc b hb).1 (fun hx => hanloc (hx ▸ hb))]
        exact hdead b (List.mem_append_left gc hb)
    · rw [hnode₂ b (isChain_mem hgc b hb).1 (fun hx => hangc (hx ▸ hb))]
      exact hdead b (List.mem_append_right loc hb)
  · refine payloads_congr fun b hb => ?_
    rw [hnode₂ b (isChain_mem hrest b hb).1 (fun hx => hanlc (hx ▸ hb))]

theorem pop_of_empty {s : State} {l : WakerList} (h : l.head = 0) :
    pop s l = (none, s, l) := by
  simp [pop, h]

theorem pushAll_spec :
    ∀ {ws : List Waker} {s : State} {l : WakerList} {lc loc gc : List Nat},
      WFChains s l lc loc gc →
      ∃ lc' loc' gc',
        WFChains (pushAll s l ws).1 (pushAll s l ws).2 lc' loc' gc' ∧
        payloads (pushAll s l ws).1.heap lc' = ws.reverse ++ payloads s.heap lc ∧
        lc'.length = ws.length + lc.length := by
  intro ws
  induction ws with
  | nil =>
    intro s l lc loc gc h
    exact ⟨lc, loc, gc, h, by simp [pushAll], by simp [pushAll]⟩
  | cons w ws ih =>
    intro s l lc loc gc h
    obtain ⟨a, loc', gc', hhd, hwf, hpay, _⟩ := push_spec w h
    rcases hp : push s l w with ⟨t, l₁⟩
    have hl₁ : l₁ = ⟨a⟩ := by rw [← hhd, hp]
    subst hl₁
    rw [hp] at hwf hpay
    have hunf : pushAll s l (w :: ws) = pushAll t ⟨a⟩ ws := by
      simp [pushAll, hp]
    rw [hunf]
    obtain ⟨lc', loc'', gc'', hwf', hpay', hlen'⟩ := ih hwf
    refine ⟨lc', loc'', gc'', hwf', ?_, by simp [hlen']; omega⟩
    rw [hpay', hpay]
    simp [List.append_assoc]

theorem popN_spec :
    ∀ {lc : List Nat} {s : State} {l : WakerList} {loc gc : List Nat},
      WFChains s l lc loc gc →
      (popN lc.length s l).1 = (payloads s.heap lc).map some ∧
      (popN lc.length s l).2.2 = WakerList.new ∧
      ∃ loc' gc',
        WFChains (popN lc.length s l).2.1 (popN lc.length s l).2.2 [] loc' gc' := by
  intro lc
  induction lc with
  | nil =>
    intro s l loc gc h
    have hl : l = WakerList.new := by
      cases l
      have h0 : _ = 0 := h.1
      simp [WakerList.new]
      exact h0
    subst hl
    exact ⟨by simp [popN, payloads], rfl, loc, gc, h⟩
  | cons a lc ih =>
    intro s l loc gc h
    obtain ⟨hres, hl2, hwf, hpay, _, _, _⟩ := pop_spec h
    rcases hp : pop s l with ⟨r, s₁, l₁⟩
    rw [hp] at hres hl2 hwf hpay
    have hunf : popN (a :: lc).length s l =
        (r :: (popN lc.length s₁ l₁).1, (popN lc.length s₁ l₁).2) := by
      simp [popN, hp]
    rw [hunf]
    obtain ⟨hres', hnew', loc'', gc'', hwf'⟩ := ih hwf
    refine ⟨?_, by simpa using hnew', loc'', gc'', by simpa using hwf'⟩
    have hr : r = some ((nodeAt s.heap a).waker.getD 0) := hres
    have hres'' : (popN lc.length s₁ l₁).1 = List.map some (payloads s₁.heap lc) := hres'
    have hpay' : payloads s₁.heap lc = payloads s.heap lc := hpay
    rw [hr, hres'', hpay']
    simp [payloads]

theorem drainIter_eq_drainSpec :
    ∀ (fuel : Nat) (s : State) (l : WakerList),
      drainIter fuel s l = drainSpec fuel s l := by
  intro fuel
  induction fuel with
  | zero => intro s l; rfl
  | succ fuel ih =>
    intro s l
    simp only [drainIter, drainSpec, iterNext]
    rcases hp : pop s l with ⟨r, s₁, l₁⟩
    cases r with
    | none => rfl
    | some w => simp [ih]

theorem drainIter_spec :
    ∀ {lc : List Nat} {s : State} {l : WakerList} {loc gc : List Nat},
      WFChains s l lc loc gc →
      (drainIter (lc.length + 1) s l).1 = payloads s.heap lc ∧
      (drainIter (lc.length + 1) s l).2.2 = WakerList.new ∧
      (iterNext (drainIter (lc.length + 1) s l).2.1
        (drainIter (lc.length + 1) s l).2.2).1 = none := by
  intro lc
  induction lc with
  | nil =>
    intro s l loc gc h
    have hl : l = WakerList.new := by
      cases l
      have h0 : _ = 0 := h.1
      simp [WakerList.new]
      exact h0
    subst hl
    have hp : pop s WakerList.new = (none, s, WakerList.new) := pop_of_empty rfl
    have hunf : drainIter (([] : List Nat).length + 1) s WakerList.new
        = ([], s, WakerList.new) := by
      simp [drainIter, iterNext, hp]
    rw [hunf]
    exact ⟨by simp [payloads], rfl, by simp [iterNext, hp]⟩
  | cons a lc ih =>
    intro s l loc gc h
    obtain ⟨hres, hl2, hwf, hpay, _, _, _⟩ := pop_spec h
    rcases hp : pop s l with ⟨r, s₁, l₁⟩
    rw [hp] at hres hl2 hwf hpay
    simp only at hres
    have hunf : drainIter ((a :: lc).length + 1) s l =
        (((nodeAt s.heap a).waker.getD 0) :: (drainIter (lc.length + 1) s₁ l₁).1,
          (drainIter (lc.length + 1) s₁ l₁).2) := by
      show drainIter (lc.length + 1 + 1) s l = _
      simp [drainIter, iterNext, hp, hres]
    obtain ⟨hres', hnew', hnone'⟩ := ih hwf
    rw [hunf]
    refine ⟨?_, by simpa using hnew', by simpa using hnone'⟩
    simp only [hres']
    rw [hpay]
    rfl

theorem release_list_steps_spec {s : State} {loc : List Nat} (hd : Nat)
    (hloc : isChain s.heap s.localHead loc) (hnd : loc.Nodup) :
    release_list_steps s hd = loc.length := by
  by_cases h0 : s.localHead = 0
  · have hloc0 : loc = [] := isChain_zero (h0 ▸ hloc)
    subst hloc0
    simp [release_list_steps, h0]
  · have hne : loc ≠ [] := isChain_head_ne hloc h0
    simp only [release_list_steps, if_neg h0]
    exact walkSteps_spec hloc hne (isChain_length_le hloc hnd)

theorem set_self_eq {heap : List WakerNode} {i : Nat} (h : i < heap.length) :
    heap.set i ((heap[i]?).getD nullNode) = heap := by
  apply List.ext_getElem?
  intro j
  by_cases hij : i = j
  · subst hij
    rw [List.getElem?_set_eq_of_lt _ h, List.getElem?_eq_getElem h]
    rfl
  · rw [List.getElem?_set_ne hij]

/-- Handing a null chain to `release_list` leaves the state untouched:
even the tail-walk-and-link path stores the null it read back. -/
theorem release_list_null {s : State} {loc : List Nat}
    (hloc : isChain s.heap s.localHead loc) (hnd : loc.Nodup) :
    release_list s 0 = s := by
  by_cases h0 : s.localHead = 0
  · show (if s.localHead = 0 then { s with localHead := 0 } else _) = s
    rw [if_pos h0, ← h0]
  · have hne : loc ≠ [] := isChain_head_ne hloc h0
    have hle : loc.length ≤ s.heap.length := isChain_length_le hloc hnd
    have hwt : walkTail s.heap s.heap.length s.localHead = loc.getLast hne :=
      walkTail_spec hloc hne hle
    have hlast : (s.node (loc.getLast hne)).next = 0 := isChain_last_next hloc hne
    have hbound : loc.getLast hne - 1 < s.heap.length :=
      (isChain_mem hloc _ (List.getLast_mem hne)).2
    show (if s.localHead = 0 then _
      else s.setNext (walkTail s.heap s.heap.length s.localHead) 0) = s
    rw [if_neg h0, hwt]
    show s.setNode (loc.getLast hne) { s.node (loc.getLast hne) with next := 0 } = s
    rw [← hlast]
    show { s with heap := s.heap.set (loc.getLast hne - 1) (s.node (loc.getLast hne)) } = s
    rw [show s.node (loc.getLast hne)
      = ((s.heap[loc.getLast hne - 1]?).getD nullNode) from rfl, set_self_eq hbound]

/-- Unfolding of `push` through the projections of `acquire_node`. -/
theorem push_unfold (s : State) (l : WakerList) (w : Waker) :
    push s l w = (((acquire_node s).2.writeWaker (acquire_node s).1 w).setNext
      (acquire_node s).1 l.head, ⟨(acquire_node s).1⟩) := rfl

/-! ## Claim theorems -/

/-- C1: LIFO round-trip: pushing `ws` in order into a freshly
constructed empty list and popping `ws.length` times returns the
handles most-recent-first (`ws.reverse`); after those pops the list
satisfies `is_empty` and one further `pop` signals none. -/
theorem lifo_round_trip (s : State) (loc gc : List Nat) (ws : List Waker)
    (h : WFChains s WakerList.new [] loc gc) :
    (popN ws.length (pushAll s WakerList.new ws).1 (pushAll s WakerList.new ws).2).1
      = (ws.reverse).map some ∧
    (popN ws.length (pushAll s WakerList.new ws).1
      (pushAll s WakerList.new ws).2).2.2.is_empty = true ∧
    (pop (popN ws.length (pushAll s WakerList.new ws).1 (pushAll s WakerList.new ws).2).2.1
      (popN ws.length (pushAll s WakerList.new ws).1
        (pushAll s WakerList.new ws).2).2.2).1 = none := by
  obtain ⟨lc', loc', gc', hwf, hpay, hlen⟩ := pushAll_spec h
  have hlen' : lc'.length = ws.length := by simpa using hlen
  obtain ⟨hres, hnew, _⟩ := popN_spec hwf
  rw [← hlen']
  refine ⟨?_, ?_, ?_⟩
  · rw [hres, hpay]
    simp [payloads]
  · rw [hnew]
    rfl
  · rw [hnew]
    simp [pop, WakerList.new]

/-- Witness for C1 at a concrete input: three pushes then three pops. -/
theorem lifo_round_trip_witness :
    (popN [1, 2, 3].length (pushAll stateEmpty WakerList.new [1, 2, 3]).1
      (pushAll stateEmpty WakerList.new [1, 2, 3]).2).1
      = [some 3, some 2, some 1] :=
  (lifo_round_trip stateEmpty [] [] [1, 2, 3] (by decide)).1

/-- C2: dropping a list whose chain is `lc` destroys exactly the
payloads of `lc` (each address once, every one live before and dead
after), and then the whole remaining chain is appended in bulk to the
destroying thread's local pool; the global pool head is untouched. -/
theorem drop_destroys_each_payload_once (s : State) (l : WakerList)
    (lc loc gc : List Nat) (h : WFChains s l lc loc gc) :
    (dropWakerList s l).2 = lc ∧ lc.Nodup ∧
    liveAll s.heap lc ∧
    deadAll (dropWakerList s l).1.heap lc ∧
    isChain (dropWakerList s l).1.heap (dropWakerList s l).1.localHead (loc ++ lc) ∧
    (dropWakerList s l).1.globalHead = s.globalHead := by
  obtain ⟨hd2, hg, hlen, hchain, hgchain, hdead, hnd⟩ := drop_spec h
  obtain ⟨hlc, hloc, hgc, hnd0, hlive, hdead0⟩ := h
  refine ⟨hd2, (nodup_parts hnd0).1, hlive, ?_, hchain, hg⟩
  intro b hb
  exact hdead b (List.mem_append_left gc (List.mem_append_right loc hb))

/-- Witness for C2 at a concrete input: dropping the one-element list. -/
theorem drop_destroys_each_payload_once_witness :
    (dropWakerList stateListAndPool ⟨1⟩).2 = [1] ∧
    isChain (dropWakerList stateListAndPool ⟨1⟩).1.heap
      (dropWakerList stateListAndPool ⟨1⟩).1.localHead ([2, 3] ++ [1]) :=
  ⟨(drop_destroys_each_payload_once stateListAndPool ⟨1⟩ [1] [2, 3] [] (by decide)).1,
   (drop_destroys_each_payload_once stateListAndPool ⟨1⟩ [1] [2, 3] []
     (by decide)).2.2.2.2.1⟩

/-- C3: `acquire_node` pops the local head if non-null, otherwise the
global head if non-null, and allocates a brand-new node (growing the
heap) exactly when both pools are observed empty. -/
theorem allocate_only_when_both_pools_empty (s : State) :
    ((acquire_node s).2.heap.length = s.heap.length + 1 ↔
      s.localHead = 0 ∧ s.globalHead = 0) ∧
    (s.localHead ≠ 0 →
      acquire_node s =
        (s.localHead, { s with localHead := (s.node s.localHead).next })) ∧
    (s.localHead = 0 → s.globalHead ≠ 0 →
      acquire_node s =
        (s.globalHead, { s with globalHead := (s.node s.globalHead).next })) ∧
    (s.localHead = 0 → s.globalHead = 0 → acquire_node s = allocate_node s) := by
  by_cases h0 : s.localHead = 0 <;> by_cases hg : s.globalHead = 0 <;>
    simp [acquire_node, allocate_node, h0, hg]

/-- Witness for C3 at concrete inputs: the local pool serves node 1 when
non-empty; an empty local and global pool forces an allocation. -/
theorem allocate_only_when_both_pools_empty_witness :
    acquire_node statePoolOne =
      (statePoolOne.localHead,
        { statePoolOne with
          localHead := (statePoolOne.node statePoolOne.localHead).next }) ∧
    acquire_node stateEmpty = allocate_node stateEmpty :=
  ⟨(allocate_only_when_both_pools_empty statePoolOne).2.1 (by decide),
   (allocate_only_when_both_pools_empty stateEmpty).2.2.2 (by decide) (by decide)⟩

/-- C6: `pop` signals none exactly when the list is empty; a pop on an
empty list returns state and list unchanged (destroying nothing), and a
freshly constructed list is empty with its first pop signalling none. -/
theorem pop_none_iff_empty (s : State) (l : WakerList) :
    ((pop s l).1 = none ↔ l.is_empty = true) ∧
    (l.is_empty = true → pop s l = (none, s, l)) ∧
    WakerList.new.is_empty = true ∧
    pop s WakerList.new = (none, s, WakerList.new) := by
  refine ⟨?_, ?_, rfl, pop_of_empty rfl⟩
  · by_cases h0 : l.head = 0
    · simp [pop, h0, WakerList.is_empty]
    · simp [pop, h0, WakerList.is_empty]
  · intro he
    have h0 : l.head = 0 := by simpa [WakerList.is_empty] using he
    exact pop_of_empty h0

/-- Witness for C6 at a concrete input: popping an empty list in a
state with a populated local pool changes nothing. -/
theorem pop_none_iff_empty_witness :
    pop statePoolOne ⟨0⟩ = (none, statePoolOne, ⟨0⟩) :=
  (pop_none_iff_empty statePoolOne ⟨0⟩).2.1 (by decide)

/-- C10: dropping an empty list destroys no payload and leaves the
state — in particular the local pool's free chain — exactly as it was,
although the bulk-release path still runs with a null chain. -/
theorem drop_empty_list_frame (s : State) (loc : List Nat)
    (hloc : isChain s.heap s.localHead loc) (hnd : loc.Nodup) :
    dropWakerList s ⟨0⟩ = (s, []) := by
  have hdp : destroyPass s.heap.length s 0 = (s, []) := destroyPass_zero _ _
  have hun : dropWakerList s ⟨0⟩ = (release_list s 0, []) := by
    simp [dropWakerList, hdp]
  rw [hun, release_list_null hloc hnd]

/-- Witness for C10 at a concrete input: dropping an empty list over a
two-node local pool is the identity. -/
theorem drop_empty_list_frame_witness :
    dropWakerList stateListAndPool ⟨0⟩ = (stateListAndPool, []) :=
  drop_empty_list_frame stateListAndPool [2, 3] (by decide) (by decide)

/-- C4 counterexample: two concrete states whose destroyed list has the
identical one-node chain `[1]`, yet the walk performed after the destroy
pass takes 0 loop iterations in one state and 2 in the other, and in the
second state the walk ends on node 3 — a local-pool node outside the
destroyed list's chain.  So destruction's second walk is not a walk of
the destroyed list's own chain to its tail followed by an O(1) splice:
its length is governed by the local pool's chain, not by the list. -/
theorem drop_second_pass_counterexample :
    isChain stateListOnly.heap 1 [1] ∧ isChain stateListAndPool.heap 1 [1] ∧
    dropSecondPhaseSteps stateListOnly ⟨1⟩ = 0 ∧
    dropSecondPhaseSteps stateListAndPool ⟨1⟩ = 2 ∧
    dropSecondPhaseSteps stateListAndPool ⟨1⟩ ≠ dropSecondPhaseSteps stateListOnly ⟨1⟩ ∧
    walkTail (destroyPass stateListAndPool.heap.length stateListAndPool 1).1.heap 3 2 = 3 ∧
    (3 : Nat) ∉ [1] := by
  decide

/-- C4 (amended): destruction makes one pass destroying exactly the
payloads of the list's chain `lc`, then hands the whole chain to
`release_list` in a single call; the only walk after the destroy pass is
`release_list`'s walk over the local pool's chain — `loc.length` loop
iterations, zero when the local pool is empty — after which the whole
chain hangs off the local chain's tail. -/
theorem drop_two_pass_structure (s : State) (l : WakerList)
    (lc loc gc : List Nat) (h : WFChains s l lc loc gc) :
    (dropWakerList s l).2 = lc ∧
    dropSecondPhaseSteps s l = loc.length ∧
    isChain (dropWakerList s l).1.heap (dropWakerList s l).1.localHead (loc ++ lc) := by
  obtain ⟨hd2, hg, hlen, hchain, hgchain, hdead, hnd⟩ := drop_spec h
  obtain ⟨hlc, hloc, hgc, hnd0, hlive, hdead0⟩ := h
  obtain ⟨hndlc, hndloc, _, hlocnlc, _, _, _, _, _, _⟩ := nodup_parts hnd0
  refine ⟨hd2, ?_, hchain⟩
  have hle : lc.length ≤ s.heap.length := isChain_length_le hlc hndlc
  obtain ⟨s₁, heq, hl₁, hg₁, hlen₁, hout₁, hin₁⟩ := destroyPass_spec hlc hndlc hle
  have hloc₁ : isChain s₁.heap s₁.localHead loc := by
    rw [hl₁]
    refine isChain_congr (by omega) (fun b hb => ?_) hloc
    rw [hout₁ b (isChain_mem hloc b hb).1 (hlocnlc b hb)]
  show release_list_steps (destroyPass s.heap.length s l.head).1 l.head = loc.length
  rw [heq]
  exact release_list_steps_spec l.head hloc₁ hndloc

/-- Witness for the amended C4 at a concrete input: the walk after the
destroy pass runs for exactly the local pool's chain length. -/
theorem drop_two_pass_structure_witness :
    dropSecondPhaseSteps stateListAndPool ⟨1⟩ = [2, 3].length :=
  (drop_two_pass_structure stateListAndPool ⟨1⟩ [1] [2, 3] [] (by decide)).2.1

/-- C5: the structural invariant — the list chain and both pool chains
are valid, finite, null-terminated, pairwise disjoint sequences; active
nodes hold live payloads, pooled nodes hold dead payloads — is
preserved by `push`, by `pop`, and by list destruction. -/
theorem invariant_preserved (s : State) (l : WakerList)
    (lc loc gc : List Nat) (w : Waker) (h : WFChains s l lc loc gc) :
    (∃ a loc' gc', WFChains (push s l w).1 (push s l w).2 (a :: lc) loc' gc') ∧
    (∃ lc' loc' gc', WFChains (pop s l).2.1 (pop s l).2.2 lc' loc' gc') ∧
    (∃ loc', WFChains (dropWakerList s l).1 WakerList.new [] loc' gc) := by
  refine ⟨?_, ?_, ?_⟩
  · obtain ⟨a, loc', gc', hhd, hwf, _, _⟩ := push_spec w h
    exact ⟨a, loc', gc', hhd ▸ hwf⟩
  · cases lc with
    | nil =>
      have h0 : l.head = 0 := h.1
      rw [pop_of_empty h0]
      exact ⟨[], loc, gc, h⟩
    | cons a lc =>
      obtain ⟨_, _, hwf, _⟩ := pop_spec h
      exact ⟨lc, a :: loc, gc, hwf⟩
  · obtain ⟨_, hg, hlen, hchain, hgchain, hdead, hnd⟩ := drop_spec h
    exact ⟨loc ++ lc, rfl, hchain, hgchain, hnd,
      fun b hb => absurd hb (List.not_mem_nil b), hdead⟩

/-- Witness for C5 at a concrete input: one push into the empty list on
the empty state. -/
theorem invariant_preserved_witness :
    ∃ a loc' gc',
      WFChains (push stateEmpty WakerList.new 5).1 (push stateEmpty WakerList.new 5).2
        (a :: []) loc' gc' :=
  (invariant_preserved stateEmpty WakerList.new [] [] [] 5 (by decide)).1

/-- C7: the consuming traversal is equivalent to repeated `pop`: each
step is exactly `pop` (`Iterator::next` delegates to it, and the fueled
code-side traversal coincides with the spec-side repeat-pop one), and
on a well-formed list it yields the same finite most-recent-first
sequence as iterated `pop`, draining the list so that the traversal is
not restartable — the final list is empty and a further step is none. -/
theorem traversal_equals_repeated_pop (s : State) (l : WakerList)
    (lc loc gc : List Nat) (h : WFChains s l lc loc gc) :
    (∀ (t : State) (m : WakerList), iterNext t m = pop t m) ∧
    (∀ (fuel : Nat) (t : State) (m : WakerList),
      drainIter fuel t m = drainSpec fuel t m) ∧
    ((drainIter (lc.length + 1) s l).1.map some = (popN lc.length s l).1) ∧
    (drainIter (lc.length + 1) s l).2.2.is_empty = true ∧
    (iterNext (drainIter (lc.length + 1) s l).2.1
      (drainIter (lc.length + 1) s l).2.2).1 = none := by
  obtain ⟨hres, hnew, hnone⟩ := drainIter_spec h
  obtain ⟨hres', _, _⟩ := popN_spec h
  refine ⟨fun t m => rfl, drainIter_eq_drainSpec, ?_, ?_, hnone⟩
  · rw [hres, hres']
  · rw [hnew]
    rfl

/-- Witness for C7 at a concrete input: a one-element list over a
populated pool. -/
theorem traversal_equals_repeated_pop_witness :
    (drainIter ([1].length + 1) stateListAndPool ⟨1⟩).1.map some
      = (popN [1].length stateListAndPool ⟨1⟩).1 :=
  (traversal_equals_repeated_pop stateListAndPool ⟨1⟩ [1] [2, 3] [] (by decide)).2.2.1

/-- C8 counterexample: with local pool chain `[1]`, bulk-releasing the
chain `[2]` with `release_list` and then acquiring returns node 1, not
the just-released node 2: a bulk-released chain is appended at the local
chain's tail, so the most recently released node is not the first node a
subsequent acquire returns. -/
theorem bulk_release_not_lifo_counterexample :
    isChain statePoolOne.heap 2 [2] ∧
    (acquire_node (release_list statePoolOne 2)).1 = 1 ∧
    (acquire_node (release_list statePoolOne 2)).1 ≠ 2 := by
  decide

/-- C8 (amended): single-node reuse is LIFO — a node freed with
`release_node` is the very next node `acquire_node` returns, and a push
immediately following a pop reuses the node that pop just released,
without allocating; a chain bulk-released with `release_list`, however,
is appended after the existing local chain, so its nodes are reused
only after all previously pooled ones. -/
theorem node_reuse_lifo_amended :
    (∀ (s : State) (n : Nat), n ≠ 0 → n - 1 < s.heap.length →
      (acquire_node (release_node s n)).1 = n ∧
      (acquire_node (release_node s n)).2.localHead = s.localHead) ∧
    (∀ (s : State) (l : WakerList) (a : Nat) (lc loc gc : List Nat) (w : Waker),
      WFChains s l (a :: lc) loc gc →
      (push (pop s l).2.1 (pop s l).2.2 w).2 = ⟨a⟩ ∧
      (push (pop s l).2.1 (pop s l).2.2 w).1.heap.length = s.heap.length) := by
  constructor
  · intro s n hn0 hlt
    have hl : (release_node s n).localHead = n := rfl
    have hnode : ((release_node s n).node n).next = s.localHead := by
      show (nodeAt (s.heap.set (n-1)
        { nodeAt s.heap n with next := s.localHead }) n).next = s.localHead
      rw [nodeAt_set_self _ hlt]
    have hacq : acquire_node (release_node s n) =
        (n, { release_node s n with
          localHead := ((release_node s n).node n).next }) := by
      simp [acquire_node, hl, hn0]
    rw [hacq]
    exact ⟨rfl, hnode⟩
  · intro s l a lc loc gc w h
    obtain ⟨hres, hl2, hwf, hpay, hlen, hlh, hgh⟩ := pop_spec h
    have ha0 : a ≠ 0 := h.1.2.1
    have ht0 : (pop s l).2.1.localHead ≠ 0 := by rw [hlh]; exact ha0
    have hacq1 : (acquire_node (pop s l).2.1).1 = (pop s l).2.1.localHead := by
      simp [acquire_node, ht0]
    have hacq2 : (acquire_node (pop s l).2.1).2.heap = (pop s l).2.1.heap := by
      simp [acquire_node, ht0]
    constructor
    · rw [push_unfold, hacq1, hlh]
    · rw [push_unfold]
      show (((acquire_node (pop s l).2.1).2.writeWaker (acquire_node (pop s l).2.1).1
        w).setNext (acquire_node (pop s l).2.1).1
          (pop s l).2.2.head).heap.length = s.heap.length
      simp only [State.setNext, State.writeWaker, State.setNode, List.length_set]
      rw [hacq2, hlen]

/-- Witness for the amended C8 at concrete inputs: a node released with
`release_node` is acquired right back, and a push after a pop reuses the
popped node. -/
theorem node_reuse_lifo_amended_witness :
    (acquire_node (release_node statePoolOne 1)).1 = 1 ∧
    (push (pop stateListAndPool ⟨1⟩).2.1 (pop stateListAndPool ⟨1⟩).2.2 9).2 = ⟨1⟩ :=
  ⟨(node_reuse_lifo_amended.1 statePoolOne 1 (by decide) (by decide)).1,
   (node_reuse_lifo_amended.2 stateListAndPool ⟨1⟩ 1 [] [2, 3] [] 9 (by decide)).1⟩

end Wakerpool
